import Mathlib

/-!
Shallow embedding of the `spaserve` SPA-serving HTTP handler (spa.go) in Lean 4.

The embedding models the pure request-level behavior of the handler:

* Go strings are modelled as Lean `String`s (sequences of `Char`); the Go code
  only slices at ASCII boundaries (`/`, `"`, …), so byte indices and character
  indices agree on everything the handler inspects.
* `path.Clean` / `path.Join` from the Go standard library are embedded as
  `goClean` / `goJoin` (segment-stack formulation of the lexical cleaning
  algorithm of Go's `path` package).
* `net/url.Parse` is treated as an external collaborator: the functions that
  call it take an oracle `pu : String → Option String` returning the `Path`
  component of the parsed URL, or `none` when parsing fails.
* The asset hierarchy (`fs.FS`) is modelled by the `stat` and `openIndex`
  fields of `SPAHandler`: `stat` is `fs.Stat` on unrooted paths, `openIndex`
  is the combined `fs.Open`/`Stat`/`io.ReadAll` of the configured index file
  (all three failure points feed the same sanitized error path).
* The regular expression `(<base href=").*?("\s*/>)` together with
  `ReplaceAllString` under the template "group 1, then base, then group 2"
  is embedded by
  `findBaseMatch`/`replaceAllBase`, implementing RE2's leftmost, lazy
  (shortest-first) match semantics where `.` matches any character except
  newline and `\s` is `[\t\n\f\r ]`.
* HTTP responses are modelled by `HttpOutcome`: either delegation to the
  static file server, a served (rewritten) index document body, or an error
  response produced by `NormalizedHttpError`.
-/

namespace Spaserve

/-! ## Go standard library string primitives -/

/-- Go `strings.HasSuffix s suffix`. -/
def goHasSuffix (s suffix : String) : Bool :=
  suffix.data.isSuffixOf s.data

/-- Go `strings.HasPrefix s "/"` as used in `originalReqPath`. -/
def startsWithSlash (s : String) : Bool :=
  match s.data with
  | '/' :: _ => true
  | _ => false

/-- Go slice `s[:len(s)-n]`, removing the trailing `n` characters. -/
def dropSuffixOfLen (s : String) (n : Nat) : String :=
  ⟨s.data.take (s.data.length - n)⟩

/-- Go `strings.ReplaceAll s "$" ""`, the `$`-sanitization applied to the
resolved base before it is used in the regexp replacement template. -/
def sanitizeBase (s : String) : String :=
  ⟨s.data.filter (fun c => c ≠ '$')⟩

/-! ## Go `path.Clean` and `path.Join`

`path.Clean` is embedded in its standard segment-stack formulation: split on
`/`, drop empty and `.` segments, let `..` pop a previous segment (when
rooted, a `..` at the top is simply dropped; when not rooted it is kept), and
re-join, prefixing `/` for rooted paths and yielding `.` for an empty result.
-/

/-- Split a character list at every `/`. -/
def splitSlash : List Char → List (List Char)
  | [] => [[]]
  | c :: cs =>
    if c = '/' then [] :: splitSlash cs
    else
      match splitSlash cs with
      | [] => [[c]]
      | g :: gs => (c :: g) :: gs

/-- Join segments with `/` separators. -/
def joinSlash : List (List Char) → List Char
  | [] => []
  | [g] => g
  | g :: gs => g ++ '/' :: joinSlash gs

/-- Process the segments of a path left to right, maintaining the (reversed)
stack of output segments, as Go's `path.Clean` does with its lazy buffer. -/
def cleanStack (rooted : Bool) : List (List Char) → List (List Char) → List (List Char)
  | [], acc => acc.reverse
  | seg :: rest, acc =>
    if seg = [] ∨ seg = ['.'] then cleanStack rooted rest acc
    else if seg = ['.', '.'] then
      match acc with
      | [] =>
        if rooted then cleanStack rooted rest []
        else cleanStack rooted rest [['.', '.']]
      | top :: acc2 =>
        if rooted = false ∧ top = ['.', '.'] then
          cleanStack rooted rest (['.', '.'] :: top :: acc2)
        else cleanStack rooted rest acc2
    else cleanStack rooted rest (seg :: acc)

/-- Go `path.Clean`. -/
def goClean (s : String) : String :=
  if s = "" then "."
  else
    let rooted := startsWithSlash s
    let stack := cleanStack rooted (splitSlash s.data) []
    let out := (if rooted then ['/'] else []) ++ joinSlash stack
    if out = [] then "." else ⟨out⟩

/-- Go `path.Join` restricted to two elements, as called by
`originalReqPath`: empty elements are skipped and the joined result is
cleaned; joining two empty strings yields the empty string. -/
def goJoin (a b : String) : String :=
  if a = "" ∧ b = "" then ""
  else if a = "" then goClean b
  else if b = "" then goClean a
  else goClean (a ++ "/" ++ b)

/-! ## Request model -/

/-- The per-request data consulted by the handler: the request URL path and
the two forwarding headers. `Header.Get` returns `""` both for an absent
header and for a present-but-empty one, so each header is a plain string with
`""` meaning absent-or-empty. -/
structure Request where
  urlPath : String
  fwPrefix : String
  fwUri : String
  deriving DecidableEq

/-! ## Step A: original request path reconstruction (`originalReqPath`) -/

/-- `(*SPAHandler).originalReqPath` from spa.go. The parameter `pu` is the
`net/url.Parse` oracle: `pu u = some p` models a successful parse whose
`.Path` field is `p`, and `pu u = none` models a parse error. -/
def originalReqPath (pu : String → Option String) (r : Request) : String :=
  if r.fwPrefix ≠ "" then
    goJoin (goClean ("/" ++ r.fwPrefix)) r.urlPath
  else if r.fwUri ≠ "" then
    if startsWithSlash r.fwUri then goClean r.fwUri
    else
      match pu r.fwUri with
      | some p => goClean ("/" ++ p)
      | none => r.urlPath
  else r.urlPath

/-! ## Step B: base path derivation (`basename`) -/

/-- The edge-case normalization at the start of `basename`: if the request
path ends in `/` but the original path does not, append `/` to the original
path. -/
def normalizeOrig (reqPath orig : String) : String :=
  if goHasSuffix reqPath "/" && !goHasSuffix orig "/" then orig ++ "/" else orig

/-- `(*SPAHandler).basename` from spa.go: derive the base path from the
request path and the reconstructed original request path. -/
def basename (pu : String → Option String) (r : Request) : String :=
  let reqPath := r.urlPath
  let originalPath := normalizeOrig reqPath (originalReqPath pu r)
  let base :=
    if goHasSuffix originalPath reqPath then
      dropSuffixOfLen originalPath reqPath.length
    else ""
  if goHasSuffix base "/" then base else base ++ "/"

/-! ## The `baseRe` regular expression and `ReplaceAllString`

Embedding of Go's `regexp.MustCompile("(<base href=\").*?(\"\\s*/>)")` and of
`baseRe.ReplaceAllString` with the template "group 1, then base, then
group 2", for a base that contains no `$` (the handler strips `$` from the
base before substituting, so the template expansion is literal concatenation
`group1 ++ base ++ group2`).
-/

/-- RE2's `\s` character class: `[\t\n\f\r ]`. -/
def isWS (c : Char) : Bool :=
  c = '\t' ∨ c = '\n' ∨ c = '\x0c' ∨ c = '\r' ∨ c = ' '

/-- The literal first group `<base href="` of `baseRe`. -/
def litL : List Char := "<base href=\"".data

/-- Try to match the closing group `"\s*/>` at the head of `l`; on success
return the matched text and the remainder. Since `/` is not whitespace, the
greedy `\s*` has exactly one viable extent: the maximal whitespace run. -/
def matchCloser (l : List Char) : Option (List Char × List Char) :=
  match l with
  | [] => none
  | c :: rest =>
    if c = '"' then
      match rest.dropWhile isWS with
      | [] => none
      | [_] => none
      | c1 :: c2 :: tail =>
        if c1 = '/' ∧ c2 = '>' then
          some ('"' :: (rest.takeWhile isWS ++ ['/', '>']), tail)
        else none
    else none

/-- Lazy scan for `.*?("\s*/>)`: find the earliest position at which the
closing group matches, crossing only non-newline characters (`.` does not
match `\n`). Returns `(content, closer, rest)`. -/
def findCloser (l : List Char) : Option (List Char × List Char × List Char) :=
  match l with
  | [] => none
  | c :: cs =>
    match matchCloser (c :: cs) with
    | some (cl, rest) => some ([], cl, rest)
    | none =>
      if c = '\n' then none
      else
        match findCloser cs with
        | some (co, cl, rest) => some (c :: co, cl, rest)
        | none => none

/-- Try to match the whole regexp at the head of `l`. -/
def headTest (l : List Char) : Option (List Char × List Char × List Char) :=
  if litL.isPrefixOf l then findCloser (l.drop litL.length) else none

/-- Leftmost match of `baseRe` in `l`: returns
`(pre, content, closer, rest)` with `l = pre ++ litL ++ content ++ closer ++ rest`,
`pre` being the unmatched prefix. -/
def findBaseMatch (l : List Char) : Option (List Char × List Char × List Char × List Char) :=
  match l with
  | [] => none
  | c :: cs =>
    match headTest (c :: cs) with
    | some (co, cl, rest) => some ([], co, cl, rest)
    | none =>
      match findBaseMatch cs with
      | some (pre, co, cl, rest) => some (c :: pre, co, cl, rest)
      | none => none

/-- Fuelled worker for `ReplaceAllString`: replace every non-overlapping
leftmost match, substituting `group1 ++ b ++ group2` and continuing after the
match. The fuel only serves termination; `replaceAllBase` supplies enough. -/
def replaceAllFuel (b : List Char) : Nat → List Char → List Char
  | 0, l => l
  | fuel + 1, l =>
    match findBaseMatch l with
    | none => l
    | some (pre, _, cl, rest) => pre ++ litL ++ b ++ cl ++ replaceAllFuel b fuel rest

/-- Go `baseRe.ReplaceAllString` on `l` with template "group 1, then `b`,
then group 2", for `$`-free `b`. -/
def replaceAllBase (b l : List Char) : List Char :=
  replaceAllFuel b l.length l

/-- The base-element rewrite on strings, with an already-sanitized base. -/
def rewriteBaseHref (base doc : String) : String :=
  ⟨replaceAllBase base.data doc.data⟩

/-- The full base-element rewrite step of `serveRewrittenIndex`: sanitize the
base (strip `$`) and substitute it into every `<base href="...">` match. -/
def baseElementRewrite (base doc : String) : String :=
  rewriteBaseHref (sanitizeBase base) doc

/-! ## Error normalization (`NormalizedHttpError`) -/

/-- A Go error value as far as the handler can observe it: whether
`errors.Is(err, fs.ErrNotExist)` / `errors.Is(err, fs.ErrPermission)` hold
(`os.IsNotExist` is modelled by the same not-exist kind), plus the underlying
detail text (wrapped messages, offending path, …) that must never leak. -/
structure GoError where
  isNotExist : Bool
  isPermission : Bool
  detail : String
  deriving DecidableEq

/-- An HTTP error response: status code and body. -/
structure HttpResponse where
  status : Nat
  body : String
  deriving DecidableEq

/-- `NormalizedHttpError` from http.go: map an error to one of three fixed
generic responses, checking the not-exist kind first. -/
def NormalizedHttpError (e : GoError) : HttpResponse :=
  if e.isNotExist then ⟨404, "404 page not found"⟩
  else if e.isPermission then ⟨403, "403 Forbidden"⟩
  else ⟨500, "500 Internal Server Error"⟩

/-- The fixed 404 response body written by `NormalizedHttpError`. -/
def notFoundResponse : HttpResponse := ⟨404, "404 page not found"⟩

/-- The fixed 403 response body written by `NormalizedHttpError`. -/
def forbiddenResponse : HttpResponse := ⟨403, "403 Forbidden"⟩

/-- The fixed 500 response body written by `NormalizedHttpError`. -/
def internalServerErrorResponse : HttpResponse := ⟨500, "500 Internal Server Error"⟩

/-! ## The handler -/

/-- The slice of `fs.FileInfo` the handler looks at:
`info.Mode() & os.ModeType == 0`, i.e. whether the entry is a regular file. -/
structure FileInfo where
  isRegular : Bool
  deriving DecidableEq

/-- What a request can be answered with. -/
inductive HttpOutcome where
  /-- Delegation to the wrapped `http.FileServer` for the given rooted path. -/
  | staticFile (path : String)
  /-- The rewritten index document served as the response body. -/
  | indexDoc (body : String)
  /-- A sanitized error response. -/
  | errorResp (resp : HttpResponse)
  deriving DecidableEq

/-- The handler configuration: the asset-hierarchy access functions and the
optional index rewriter hook. `stat` models `fs.Stat` on unrooted paths;
`openIndex` models opening, statting and reading the configured index file
(any of the three failures surfaces through the same error path). -/
structure SPAHandler where
  stat : String → Except GoError FileInfo
  openIndex : Except GoError String
  indexRewriter : Option (Request → String → String)

/-- `(*SPAHandler).serveStaticAsset` from spa.go. `none` models returning
`false` with nothing written (fall back to the index); `some o` models
returning `true` after writing `o`. -/
def serveStaticAsset (h : SPAHandler) (urlPath : String) : Option HttpOutcome :=
  let path := urlPath.drop 1
  if path = "" then none
  else
    match h.stat path with
    | Except.ok info =>
      if info.isRegular then some (HttpOutcome.staticFile urlPath) else none
    | Except.error e =>
      if e.isNotExist then none
      else some (HttpOutcome.errorResp (NormalizedHttpError e))

/-- `(*SPAHandler).serveRewrittenIndex` from spa.go: sanitize the resolved
base, open and read the index document, substitute the base into the base
element, apply the optional rewriter hook, and serve the result. -/
def serveRewrittenIndex (pu : String → Option String) (h : SPAHandler) (r : Request) :
    HttpOutcome :=
  let base := sanitizeBase (basename pu r)
  match h.openIndex with
  | Except.error e => HttpOutcome.errorResp (NormalizedHttpError e)
  | Except.ok contents =>
    let finalIndexhtml := rewriteBaseHref base contents
    match h.indexRewriter with
    | some rw => HttpOutcome.indexDoc (rw r finalIndexhtml)
    | none => HttpOutcome.indexDoc finalIndexhtml

/-- The path normalization performed first by `ServeHTTP`:
`r.URL.Path = path.Clean("/" + r.URL.Path)`. -/
def cleanedPath (r : Request) : String :=
  goClean ("/" ++ r.urlPath)

/-- `(*SPAHandler).ServeHTTP` from spa.go. -/
def ServeHTTP (pu : String → Option String) (h : SPAHandler) (r : Request) : HttpOutcome :=
  let r2 : Request := { r with urlPath := cleanedPath r }
  match serveStaticAsset h r2.urlPath with
  | some o => o
  | none => serveRewrittenIndex pu h r2

/-! ## Spec-side definitions (for refinement statements) -/

/-- Append a trailing slash when one is missing (spec §4.2 Step B.3). -/
def ensureTrailingSlash (s : String) : String :=
  if goHasSuffix s "/" then s else s ++ "/"

/-- The original-path precedence exactly as claim C2 words it, written as a
separate definition to be compared with `originalReqPath`. -/
def originalReqPathSpec (pu : String → Option String) (r : Request) : String :=
  if r.fwPrefix ≠ "" then
    goJoin (goClean ("/" ++ r.fwPrefix)) r.urlPath
  else if r.fwUri = "" then r.urlPath
  else if startsWithSlash r.fwUri then goClean r.fwUri
  else
    match pu r.fwUri with
    | some p => goClean ("/" ++ p)
    | none => r.urlPath

/-- Does the path contain a literal `..` segment? -/
def hasDotDotSegment (s : String) : Bool :=
  (splitSlash s.data).contains ['.', '.']

/-- Walk the segments of a path keeping track of the directory depth; empty
and `.` segments do not move, `..` must never step above the root. -/
def staysAux : List (List Char) → Nat → Bool
  | [], _ => true
  | seg :: rest, d =>
    if seg = [] ∨ seg = ['.'] then staysAux rest d
    else if seg = ['.', '.'] then decide (0 < d) && staysAux rest (d - 1)
    else staysAux rest (d + 1)

/-- A path stays inside the (asset) root when its lexical walk never steps
above depth zero. -/
def staysInRoot (s : String) : Bool :=
  staysAux (splitSlash s.data) 0

/-- A self-closing double-quoted base element with the given href value. -/
def baseElement (href : List Char) : List Char :=
  litL ++ href ++ ['"', '/', '>']

/-- No occurrence of the literal `<base href="` starts at any position inside
`g`, even when the occurrence would read across `g`'s right edge into a
directly following base element (whose text starts with that very literal). -/
def noLitStart : List Char → Bool
  | [] => true
  | c :: cs => !litL.isPrefixOf ((c :: cs) ++ litL) && noLitStart cs

/-- A document interleaving arbitrary markup with self-closing double-quoted
base elements: each pair contributes its gap markup followed by a base
element with the given href value, and `post` is the trailing markup. -/
def docOfParts (post : List Char) : List (List Char × List Char) → List Char
  | [] => post
  | (g, href) :: ps => g ++ baseElement href ++ docOfParts post ps

/-! ## Helper lemmas about the string primitives -/

theorem goHasSuffix_append_slash (s : String) : goHasSuffix (s ++ "/") "/" = true := by
  have h : ("/" : String).data <:+ (s ++ "/").data := by
    rw [String.data_append]
    exact List.suffix_append _ _
  simp [goHasSuffix, List.isSuffixOf_iff_suffix, h]

theorem ne_empty_of_goHasSuffix_slash {s : String} (h : goHasSuffix s "/" = true) :
    s ≠ "" := by
  intro he
  subst he
  exact absurd h (by decide)

theorem append_slash_ne_empty (s : String) : s ++ "/" ≠ "" := by
  intro h
  have hd := congrArg String.data h
  simp [String.data_append] at hd

/-! ## C1, C7: `basename` shape -/

/-- C1: for every request, with `R` the request path and `O` the original
path after Step B.1 normalization, `basename` returns `O` minus its trailing
`R`-length suffix (with a `/` appended if missing) when `O` ends with `R`,
and exactly `"/"` otherwise. -/
theorem basename_suffix_rule (pu : String → Option String) (r : Request) :
    basename pu r =
      if goHasSuffix (normalizeOrig r.urlPath (originalReqPath pu r)) r.urlPath then
        ensureTrailingSlash
          (dropSuffixOfLen (normalizeOrig r.urlPath (originalReqPath pu r)) r.urlPath.length)
      else "/" := by
  unfold basename ensureTrailingSlash
  by_cases h : goHasSuffix (normalizeOrig r.urlPath (originalReqPath pu r)) r.urlPath = true
  · simp [h]
  · simp [h]
    decide

/-- C7: for every request and forwarding-header combination (and every
URL-parse oracle), the resolved base returned by `basename` is non-empty and
ends with `/`. -/
theorem basename_nonempty_trailing_slash (pu : String → Option String) (r : Request) :
    basename pu r ≠ "" ∧ goHasSuffix (basename pu r) "/" = true := by
  unfold basename
  by_cases h : goHasSuffix
      (if goHasSuffix (normalizeOrig r.urlPath (originalReqPath pu r)) r.urlPath then
        dropSuffixOfLen (normalizeOrig r.urlPath (originalReqPath pu r)) r.urlPath.length
      else "") "/" = true
  · simp only [h, if_true]
    exact ⟨ne_empty_of_goHasSuffix_slash h, trivial⟩
  · simp only [h, if_false]
    exact ⟨append_slash_ne_empty _, goHasSuffix_append_slash _⟩

/-! ## C4: lexical cleaning is the traversal defense -/

theorem splitSlash_ne_nil (l : List Char) : splitSlash l ≠ [] := by
  cases l with
  | nil => simp [splitSlash]
  | cons c cs =>
    simp only [splitSlash]
    by_cases h : c = '/'
    · simp [h]
    · simp only [h, if_false]
      cases hs : splitSlash cs <;> simp

theorem mem_splitSlash_no_slash (l : List Char) : ∀ g ∈ splitSlash l, ('/' : Char) ∉ g := by
  induction l with
  | nil =>
    intro g hg
    simp [splitSlash] at hg
    simp [hg]
  | cons c cs ih =>
    intro g hg
    by_cases h : c = '/'
    · simp only [splitSlash, h, if_true] at hg
      rcases List.mem_cons.mp hg with rfl | hmem
      · simp
      · exact ih g hmem
    · simp only [splitSlash, h, if_false] at hg
      cases hs : splitSlash cs with
      | nil => exact absurd hs (splitSlash_ne_nil cs)
      | cons g0 gs =>
        rw [hs] at hg
        rcases List.mem_cons.mp hg with rfl | hmem
        · intro hmem2
          rcases List.mem_cons.mp hmem2 with he | hmem3
          · exact h he.symm
          · exact ih g0 (hs ▸ List.mem_cons_self g0 gs) hmem3
        · exact ih g (hs ▸ List.mem_cons_of_mem g0 hmem)

theorem cleanStack_rooted_good (l : List (List Char)) :
    ∀ acc, (∀ g ∈ l, ('/' : Char) ∉ g) →
      (∀ g ∈ acc, ('/' : Char) ∉ g ∧ g ≠ ['.', '.']) →
      ∀ g ∈ cleanStack true l acc, ('/' : Char) ∉ g ∧ g ≠ ['.', '.'] := by
  induction l with
  | nil =>
    intro acc _ hacc g hg
    simp only [cleanStack] at hg
    exact hacc g (List.mem_reverse.mp hg)
  | cons seg rest ih =>
    intro acc hl hacc g hg
    have hlrest : ∀ g ∈ rest, ('/' : Char) ∉ g :=
      fun g hg' => hl g (List.mem_cons_of_mem _ hg')
    by_cases h1 : seg = [] ∨ seg = ['.']
    · simp only [cleanStack, if_pos h1] at hg
      exact ih acc hlrest hacc g hg
    · by_cases h2 : seg = ['.', '.']
      · cases acc with
        | nil =>
          simp only [cleanStack, if_neg h1, if_pos h2, if_true] at hg
          exact ih [] hlrest (by simp) g hg
        | cons top acc2 =>
          simp only [cleanStack, if_neg h1, if_pos h2] at hg
          rw [if_neg (by simp)] at hg
          exact ih acc2 hlrest (fun g' hg' => hacc g' (List.mem_cons_of_mem _ hg')) g hg
      · simp only [cleanStack, if_neg h1, if_neg h2] at hg
        refine ih (seg :: acc) hlrest ?_ g hg
        intro g' hg'
        rcases List.mem_cons.mp hg' with rfl | hmem
        · exact ⟨hl g' (List.mem_cons_self _ _), h2⟩
        · exact hacc g' hmem

theorem splitSlash_no_slash_single (g : List Char) (h : ('/' : Char) ∉ g) :
    splitSlash g = [g] := by
  induction g with
  | nil => simp [splitSlash]
  | cons c cs ih =>
    have hc : c ≠ '/' := fun he => h (he ▸ List.mem_cons_self c cs)
    have hcs : ('/' : Char) ∉ cs := fun hm => h (List.mem_cons_of_mem c hm)
    simp only [splitSlash, hc, if_false, ih hcs]

theorem splitSlash_append_slash (g rest : List Char) (h : ('/' : Char) ∉ g) :
    splitSlash (g ++ '/' :: rest) = g :: splitSlash rest := by
  induction g with
  | nil => simp [splitSlash]
  | cons c cs ih =>
    have hc : c ≠ '/' := fun he => h (he ▸ List.mem_cons_self c cs)
    have hcs : ('/' : Char) ∉ cs := fun hm => h (List.mem_cons_of_mem c hm)
    simp only [List.cons_append, splitSlash, hc, if_false, List.append_eq]
    rw [ih hcs]

theorem splitSlash_joinSlash (gs : List (List Char)) (hne : gs ≠ [])
    (h : ∀ g ∈ gs, ('/' : Char) ∉ g) : splitSlash (joinSlash gs) = gs := by
  induction gs with
  | nil => exact absurd rfl hne
  | cons g gs ih =>
    cases gs with
    | nil =>
      simp only [joinSlash]
      exact splitSlash_no_slash_single g (h g (List.mem_cons_self _ _))
    | cons g2 gs2 =>
      simp only [joinSlash]
      rw [splitSlash_append_slash g _ (h g (List.mem_cons_self _ _))]
      rw [ih (by simp) (fun g' hg' => h g' (List.mem_cons_of_mem _ hg'))]

theorem goClean_slash_data (p : String) :
    (goClean ("/" ++ p)).data =
      '/' :: joinSlash (cleanStack true (splitSlash (("/" ++ p).data)) []) := by
  have hne : ("/" ++ p) ≠ "" := by
    intro h
    have hd := congrArg String.data h
    simp [String.data_append] at hd
  have hdata : ("/" ++ p).data = '/' :: p.data := by
    rw [String.data_append]
    rfl
  have hsw : startsWithSlash ("/" ++ p) = true := by
    simp [startsWithSlash, hdata]
  unfold goClean
  rw [if_neg hne, hsw]
  simp only [if_true, List.cons_append, List.nil_append]
  rw [if_neg (by simp)]

theorem staysAux_no_dotdot (l : List (List Char)) (h : ∀ g ∈ l, g ≠ ['.', '.']) :
    ∀ d, staysAux l d = true := by
  induction l with
  | nil => intro d; rfl
  | cons seg rest ih =>
    intro d
    have hrest : ∀ g ∈ rest, g ≠ ['.', '.'] := fun g hg => h g (List.mem_cons_of_mem _ hg)
    by_cases h1 : seg = [] ∨ seg = ['.']
    · simp only [staysAux, if_pos h1]
      exact ih hrest d
    · simp only [staysAux, if_neg h1, if_neg (h seg (List.mem_cons_self _ _))]
      exact ih hrest (d + 1)

theorem contains_eq_false_of_forall_ne (l : List (List Char)) (x : List Char)
    (h : ∀ g ∈ l, g ≠ x) : l.contains x = false := by
  have hx : x ∉ l := fun hm => h x hm rfl
  simp [hx]

/-- C4: the path cleaned by `ServeHTTP` (prefix `/`, then lexical cleaning)
is rooted, contains no remaining `..` segment, and its lexical walk never
steps above the asset root; in particular no request path (e.g. `/../secret`)
can escape the asset root. -/
theorem cleanedPath_traversal_safe (r : Request) :
    startsWithSlash (cleanedPath r) = true ∧
    hasDotDotSegment (cleanedPath r) = false ∧
    staysInRoot (cleanedPath r) = true := by
  have hdata : (cleanedPath r).data =
      '/' :: joinSlash (cleanStack true (splitSlash (("/" ++ r.urlPath).data)) []) :=
    goClean_slash_data r.urlPath
  have hgood : ∀ g ∈ cleanStack true (splitSlash (("/" ++ r.urlPath).data)) [],
      ('/' : Char) ∉ g ∧ g ≠ ['.', '.'] :=
    cleanStack_rooted_good _ [] (mem_splitSlash_no_slash _) (by simp)
  have hsegs : ∀ g ∈ splitSlash (cleanedPath r).data, g ≠ ['.', '.'] := by
    rw [hdata]
    cases hst : cleanStack true (splitSlash (("/" ++ r.urlPath).data)) [] with
    | nil =>
      intro g hg
      simp [splitSlash] at hg
      subst hg
      simp
    | cons g0 gs =>
      have hjoin : splitSlash ('/' :: joinSlash (g0 :: gs)) =
          [] :: splitSlash (joinSlash (g0 :: gs)) := by
        simp [splitSlash]
      rw [hjoin, splitSlash_joinSlash _ (by simp)
        (fun g' hg' => (hgood g' (hst ▸ hg')).1)]
      intro g hg
      rcases List.mem_cons.mp hg with rfl | hmem
      · simp
      · exact (hgood g (hst ▸ hmem)).2
  refine ⟨?_, ?_, ?_⟩
  · simp [startsWithSlash, hdata]
  · exact contains_eq_false_of_forall_ne _ _ hsegs
  · exact staysAux_no_dotdot _ hsegs 0

/-! ## C2: `originalReqPath` precedence -/

/-- C2: `originalReqPath` follows exactly the precedence of the spec: a
non-empty forwarded prefix is cleaned as a rooted path and joined with the
current request path; otherwise a non-empty forwarded URI is cleaned directly
when it starts with `/`, else its parsed path component is cleaned (the
header being ignored entirely when parsing fails); otherwise the current
cleaned request path is used. -/
theorem originalReqPath_precedence (pu : String → Option String) (r : Request) :
    originalReqPath pu r = originalReqPathSpec pu r := by
  unfold originalReqPath originalReqPathSpec
  by_cases h1 : r.fwPrefix = ""
  · by_cases h2 : r.fwUri = "" <;> simp [h1, h2]
  · simp [h1]

/-! ## C9: the `/foo/bar` with prefix `/bar` example -/

/-- C9: for a request with cleaned path `/foo/bar` and `X-Forwarded-Prefix`
set to `/bar`, the original path is `/bar/foo/bar` and the resolved base is
`/bar/` (the original path does end with the request path here). -/
theorem forwarded_prefix_bar_example (pu : String → Option String) :
    originalReqPath pu ⟨"/foo/bar", "/bar", ""⟩ = "/bar/foo/bar" ∧
    basename pu ⟨"/foo/bar", "/bar", ""⟩ = "/bar/" :=
  ⟨rfl, rfl⟩

/-! ## C6: error normalization -/

/-- C6: `NormalizedHttpError` produces exactly one of three fixed generic
responses, chosen by the error kind — 404 for not-exist, 403 for permission,
500 otherwise — and the response never depends on the underlying error
detail. -/
theorem normalizedHttpError_fixed_responses (e : GoError) :
    (NormalizedHttpError e = notFoundResponse ∨ NormalizedHttpError e = forbiddenResponse ∨
      NormalizedHttpError e = internalServerErrorResponse) ∧
    (e.isNotExist = true → NormalizedHttpError e = notFoundResponse) ∧
    (e.isNotExist = false → e.isPermission = true →
      NormalizedHttpError e = forbiddenResponse) ∧
    (e.isNotExist = false → e.isPermission = false →
      NormalizedHttpError e = internalServerErrorResponse) ∧
    (∀ d : String, NormalizedHttpError { e with detail := d } = NormalizedHttpError e) := by
  obtain ⟨ne, pe, de⟩ := e
  cases ne <;> cases pe <;>
    simp [NormalizedHttpError, notFoundResponse, forbiddenResponse,
      internalServerErrorResponse]

/-- Witness for C6 at a concrete permission error carrying a sensitive
detail string. -/
theorem normalizedHttpError_fixed_responses_witness :
    NormalizedHttpError ⟨false, true, "open secret/key.pem: permission denied"⟩ =
      forbiddenResponse :=
  (normalizedHttpError_fixed_responses
      ⟨false, true, "open secret/key.pem: permission denied"⟩).2.2.1 rfl rfl

/-! ## C5: static-asset classification -/

/-- C5: `serveStaticAsset` classifies exactly as specified: an empty stripped
path falls back to the index; a stat success on a plain file delegates to the
static file server; a not-exist stat failure falls back; any other stat
failure yields a sanitized error response and never falls back. -/
theorem serveStaticAsset_classification (h : SPAHandler) (urlPath : String) :
    (urlPath.drop 1 = "" → serveStaticAsset h urlPath = none) ∧
    (∀ info : FileInfo, urlPath.drop 1 ≠ "" →
      h.stat (urlPath.drop 1) = Except.ok info → info.isRegular = true →
      serveStaticAsset h urlPath = some (HttpOutcome.staticFile urlPath)) ∧
    (∀ e : GoError, urlPath.drop 1 ≠ "" →
      h.stat (urlPath.drop 1) = Except.error e → e.isNotExist = true →
      serveStaticAsset h urlPath = none) ∧
    (∀ e : GoError, urlPath.drop 1 ≠ "" →
      h.stat (urlPath.drop 1) = Except.error e → e.isNotExist = false →
      serveStaticAsset h urlPath = some (HttpOutcome.errorResp (NormalizedHttpError e))) := by
  refine ⟨fun h1 => ?_, fun info h1 h2 h3 => ?_, fun e h1 h2 h3 => ?_, fun e h1 h2 h3 => ?_⟩ <;>
    simp [serveStaticAsset, *]

/-- Witness for C5: a permission-denied stat failure on `/app.js` is turned
into the sanitized 403 response rather than a fallback to the index. -/
theorem serveStaticAsset_classification_witness :
    serveStaticAsset
        ⟨fun _ => Except.error ⟨false, true, "denied"⟩, Except.ok "", none⟩ "/app.js" =
      some (HttpOutcome.errorResp (NormalizedHttpError ⟨false, true, "denied"⟩)) :=
  (serveStaticAsset_classification
      ⟨fun _ => Except.error ⟨false, true, "denied"⟩, Except.ok "", none⟩ "/app.js").2.2.2
    ⟨false, true, "denied"⟩ (by decide) rfl rfl

/-! ## C10: existing non-regular entries fall back to the index -/

/-- C10: when the cleaned non-empty path names an existing entry that is not
a regular file, `serveStaticAsset` returns `none` (nothing written) and the
handler serves the rewritten index document instead of the entry and instead
of an error. -/
theorem serveStaticAsset_nonregular_fallback (pu : String → Option String)
    (h : SPAHandler) (r : Request) (info : FileInfo) :
    (cleanedPath r).drop 1 ≠ "" →
    h.stat ((cleanedPath r).drop 1) = Except.ok info →
    info.isRegular = false →
    serveStaticAsset h (cleanedPath r) = none ∧
    ServeHTTP pu h r = serveRewrittenIndex pu h { r with urlPath := cleanedPath r } ∧
    (∀ doc : String, h.openIndex = Except.ok doc →
      ∃ body : String, ServeHTTP pu h r = HttpOutcome.indexDoc body) := by
  intro h1 h2 h3
  have hs : serveStaticAsset h (cleanedPath r) = none := by
    simp [serveStaticAsset, h1, h2, h3]
  refine ⟨hs, ?_, ?_⟩
  · simp [ServeHTTP, hs]
  · intro doc hdoc
    simp only [ServeHTTP, hs, serveRewrittenIndex, hdoc]
    cases hrw : h.indexRewriter <;> simp [hrw]

/-- Witness for C10: a directory entry at `/docs` is skipped and the index
document is served. -/
theorem serveStaticAsset_nonregular_fallback_witness :
    serveStaticAsset
        (⟨fun _ => Except.ok ⟨false⟩, Except.ok "<base href=\"\"/>", none⟩ : SPAHandler)
        (cleanedPath ⟨"/docs", "", ""⟩) = none :=
  (serveStaticAsset_nonregular_fallback (fun _ => none)
      ⟨fun _ => Except.ok ⟨false⟩, Except.ok "<base href=\"\"/>", none⟩
      ⟨"/docs", "", ""⟩ ⟨false⟩ (by decide) rfl rfl).1

/-! ## Structure of `baseRe` matching -/

theorem litL_cons : litL = '<' :: "base href=\"".data := rfl

theorem litL_no_newline : ∀ c ∈ litL, c ≠ '\n' := by decide

theorem takeWhile_append_not {p : Char → Bool} (a : List Char) {d : Char}
    (hd : p d = false) (t : List Char) : (a ++ d :: t).takeWhile p = a.takeWhile p := by
  induction a with
  | nil => simp [List.takeWhile_cons, hd]
  | cons c a ih => by_cases hc : p c <;> simp [List.takeWhile_cons, hc, ih]

theorem dropWhile_append_not {p : Char → Bool} (a : List Char) {d : Char}
    (hd : p d = false) (t : List Char) :
    (a ++ d :: t).dropWhile p = a.dropWhile p ++ d :: t := by
  induction a with
  | nil => simp [List.dropWhile_cons, hd]
  | cons c a ih => by_cases hc : p c <;> simp [List.dropWhile_cons, hc, ih]

theorem matchCloser_cons_ne {c : Char} (hc : c ≠ '"') (l : List Char) :
    matchCloser (c :: l) = none := by
  simp [matchCloser, hc]

theorem matchCloser_shape {l cl rest : List Char} (h : matchCloser l = some (cl, rest)) :
    l = cl ++ rest ∧ ∃ ws, (∀ c ∈ ws, isWS c = true) ∧ cl = '"' :: (ws ++ ['/', '>']) := by
  cases l with
  | nil => simp [matchCloser] at h
  | cons c r =>
    simp only [matchCloser] at h
    split at h
    · split at h
      · simp at h
      · simp at h
      · rename_i hc _ c1 c2 tail hd
        split at h
        · rename_i h12
          obtain ⟨rfl, rfl⟩ := h12
          simp only [Option.some.injEq, Prod.mk.injEq] at h
          obtain ⟨rfl, rfl⟩ := h
          subst hc
          constructor
          · have hr : r = r.takeWhile isWS ++ r.dropWhile isWS :=
              (List.takeWhile_append_dropWhile ..).symm
            rw [hd] at hr
            conv_lhs => rw [hr]
            simp [List.append_assoc]
          · exact ⟨r.takeWhile isWS, fun c hc => List.mem_takeWhile_imp hc, rfl⟩
        · simp at h
    · simp at h

theorem matchCloser_fires {ws : List Char} (hws : ∀ c ∈ ws, isWS c = true) (t : List Char) :
    matchCloser ('"' :: (ws ++ '/' :: '>' :: t)) = some ('"' :: (ws ++ ['/', '>']), t) := by
  have hdw : (ws ++ '/' :: '>' :: t).dropWhile isWS = '/' :: '>' :: t := by
    rw [dropWhile_append_not ws (by decide) _]
    simp [List.dropWhile_eq_nil_iff.mpr hws]
  have htw : (ws ++ '/' :: '>' :: t).takeWhile isWS = ws := by
    rw [takeWhile_append_not ws (by decide) _]
    exact List.takeWhile_eq_self_iff.mpr hws
  simp [matchCloser, hdw, htw]

theorem findCloser_structure {l : List Char} :
    ∀ {co cl rest : List Char}, findCloser l = some (co, cl, rest) →
      l = co ++ cl ++ rest ∧ (∀ c ∈ co, c ≠ '\n') ∧
        ∃ ws, (∀ c ∈ ws, isWS c = true) ∧ cl = '"' :: (ws ++ ['/', '>']) := by
  induction l with
  | nil => intro co cl rest h; simp [findCloser] at h
  | cons c cs ih =>
    intro co cl rest h
    simp only [findCloser] at h
    cases hm : matchCloser (c :: cs) with
    | some p =>
      obtain ⟨cl2, rest2⟩ := p
      rw [hm] at h
      simp only [Option.some.injEq, Prod.mk.injEq] at h
      obtain ⟨rfl, rfl, rfl⟩ := h
      obtain ⟨heq, hshape⟩ := matchCloser_shape hm
      exact ⟨by simpa using heq, by simp, hshape⟩
    | none =>
      rw [hm] at h
      by_cases hnl : c = '\n'
      · rw [if_pos hnl] at h; simp at h
      · rw [if_neg hnl] at h
        cases hf : findCloser cs with
        | none => rw [hf] at h; simp at h
        | some q =>
          obtain ⟨co2, cl2, rest2⟩ := q
          rw [hf] at h
          simp only [Option.some.injEq, Prod.mk.injEq] at h
          obtain ⟨rfl, rfl, rfl⟩ := h
          obtain ⟨heq, hco, hshape⟩ := ih hf
          refine ⟨by simp [heq], ?_, hshape⟩
          intro x hx
          rcases List.mem_cons.mp hx with rfl | hmem
          · exact hnl
          · exact hco x hmem

theorem findCloser_fires {u v : List Char} (hu : ∀ c ∈ u, c ≠ '\n')
    {cl rest : List Char} (hv : matchCloser v = some (cl, rest)) :
    findCloser (u ++ v) ≠ none := by
  induction u with
  | nil =>
    cases v with
    | nil => simp [matchCloser] at hv
    | cons c cs => simp [findCloser, hv]
  | cons c u' ih =>
    simp only [List.cons_append, findCloser]
    cases hm : matchCloser (c :: (u' ++ v)) with
    | some p => simp
    | none =>
      rw [if_neg (hu c (List.mem_cons_self _ _))]
      cases hf : findCloser (u' ++ v) with
      | none => exact absurd hf (ih (fun x hx => hu x (List.mem_cons_of_mem _ hx)))
      | some q => simp

theorem findCloser_content {b : List Char} (hbq : ∀ c ∈ b, c ≠ '"')
    (hbn : ∀ c ∈ b, c ≠ '\n') {ws : List Char} (hws : ∀ c ∈ ws, isWS c = true)
    (t : List Char) :
    findCloser (b ++ '"' :: (ws ++ '/' :: '>' :: t)) =
      some (b, '"' :: (ws ++ ['/', '>']), t) := by
  induction b with
  | nil =>
    simp only [List.nil_append, findCloser, matchCloser_fires hws t]
  | cons c b' ih =>
    have hne : matchCloser (c :: (b' ++ '"' :: (ws ++ '/' :: '>' :: t))) = none :=
      matchCloser_cons_ne (hbq c (List.mem_cons_self _ _)) _
    simp only [List.cons_append, findCloser, List.append_eq, hne,
      if_neg (hbn c (List.mem_cons_self _ _)),
      ih (fun x hx => hbq x (List.mem_cons_of_mem _ hx))
        (fun x hx => hbn x (List.mem_cons_of_mem _ hx))]

theorem eq_append_drop_of_isPrefixOf {p l : List Char} (h : p.isPrefixOf l = true) :
    l = p ++ l.drop p.length := by
  obtain ⟨t, rfl⟩ := List.isPrefixOf_iff_prefix.mp h
  simp

theorem findBaseMatch_structure {l : List Char} :
    ∀ {pre co cl rest : List Char}, findBaseMatch l = some (pre, co, cl, rest) →
      l = pre ++ litL ++ co ++ cl ++ rest ∧ (∀ c ∈ co, c ≠ '\n') ∧
        (∃ ws, (∀ c ∈ ws, isWS c = true) ∧ cl = '"' :: (ws ++ ['/', '>'])) ∧
        (∀ x c y, pre = x ++ c :: y →
          headTest ((c :: y) ++ litL ++ co ++ cl ++ rest) = none) := by
  induction l with
  | nil => intro pre co cl rest h; simp [findBaseMatch] at h
  | cons c0 cs ih =>
    intro pre co cl rest h
    simp only [findBaseMatch] at h
    cases hh : headTest (c0 :: cs) with
    | some p =>
      obtain ⟨co2, cl2, rest2⟩ := p
      rw [hh] at h
      simp only [Option.some.injEq, Prod.mk.injEq] at h
      obtain ⟨rfl, rfl, rfl, rfl⟩ := h
      unfold headTest at hh
      by_cases hp : litL.isPrefixOf (c0 :: cs) = true
      · rw [if_pos hp] at hh
        obtain ⟨heq, hco, hshape⟩ := findCloser_structure hh
        have hpre : c0 :: cs = litL ++ (c0 :: cs).drop litL.length :=
          eq_append_drop_of_isPrefixOf hp
        constructor
        · rw [hpre, heq]; simp [List.append_assoc]
        · exact ⟨hco, hshape, fun x c y hxy => absurd hxy (by simp)⟩
      · rw [if_neg hp] at hh; simp at hh
    | none =>
      rw [hh] at h
      cases hf : findBaseMatch cs with
      | none => rw [hf] at h; simp at h
      | some q =>
        obtain ⟨pre2, co2, cl2, rest2⟩ := q
        rw [hf] at h
        simp only [Option.some.injEq, Prod.mk.injEq] at h
        obtain ⟨rfl, rfl, rfl, rfl⟩ := h
        obtain ⟨heq, hco, hshape, hpos⟩ := ih hf
        refine ⟨by simp [heq], hco, hshape, ?_⟩
        intro x c y hxy
        cases x with
        | nil =>
          simp only [List.nil_append, List.cons.injEq] at hxy
          obtain ⟨hc1, hy1⟩ := hxy
          have hsh : (c :: y) ++ litL ++ co2 ++ cl2 ++ rest2 = c0 :: cs := by
            rw [← hc1, ← hy1, heq]
            simp [List.append_assoc]
          rw [hsh]
          exact hh
        | cons x0 x' =>
          simp only [List.cons_append, List.cons.injEq] at hxy
          exact hpos x' c y hxy.2

theorem findBaseMatch_build (pre : List Char) {K co cl rest : List Char}
    (hK : headTest K = some (co, cl, rest))
    (hpos : ∀ x c y, pre = x ++ c :: y → headTest ((c :: y) ++ K) = none) :
    findBaseMatch (pre ++ K) = some (pre, co, cl, rest) := by
  induction pre with
  | nil =>
    have hp : litL.isPrefixOf K = true := by
      by_contra hp
      unfold headTest at hK
      rw [if_neg hp] at hK
      simp at hK
    cases hKc : K with
    | nil => subst hKc; simp [List.isPrefixOf] at hp
    | cons k ks =>
      subst hKc
      simp only [List.nil_append, findBaseMatch, hK]
  | cons c pre' ih =>
    have h0 : headTest ((c :: pre') ++ K) = none := hpos [] c pre' rfl
    simp only [List.cons_append] at h0 ⊢
    simp only [findBaseMatch, h0]
    rw [ih (fun x c' y hxy => hpos (c :: x) c' y (by simp [hxy]))]

/-! ## `ReplaceAllString` unfolding -/

theorem replaceAllFuel_congr (b : List Char) :
    ∀ f₁ f₂ (l : List Char), l.length ≤ f₁ → l.length ≤ f₂ →
      replaceAllFuel b f₁ l = replaceAllFuel b f₂ l := by
  intro f₁
  induction f₁ with
  | zero =>
    intro f₂ l h1 _
    have : l = [] := List.eq_nil_of_length_eq_zero (Nat.le_zero.mp h1)
    subst this
    cases f₂ <;> simp [replaceAllFuel, findBaseMatch]
  | succ f ih =>
    intro f₂ l h1 h2
    cases f₂ with
    | zero =>
      have : l = [] := List.eq_nil_of_length_eq_zero (Nat.le_zero.mp h2)
      subst this
      simp [replaceAllFuel, findBaseMatch]
    | succ f2 =>
      simp only [replaceAllFuel]
      cases hm : findBaseMatch l with
      | none => rfl
      | some p =>
        obtain ⟨pre, co, cl, rest⟩ := p
        obtain ⟨heq, -, -, -⟩ := findBaseMatch_structure hm
        have hlen := congrArg List.length heq
        have hlit : litL.length = 12 := rfl
        simp only [List.length_append, hlit] at hlen
        dsimp only
        rw [ih f2 rest (by omega) (by omega)]

theorem replaceAllBase_eq (b l : List Char) :
    replaceAllBase b l =
      match findBaseMatch l with
      | none => l
      | some (pre, _, cl, rest) => pre ++ litL ++ b ++ cl ++ replaceAllBase b rest := by
  unfold replaceAllBase
  cases l with
  | nil => simp [replaceAllFuel, findBaseMatch]
  | cons c cs =>
    simp only [List.length_cons, replaceAllFuel]
    cases hm : findBaseMatch (c :: cs) with
    | none => rfl
    | some p =>
      obtain ⟨pre, co, cl, rest⟩ := p
      obtain ⟨heq, -, -, -⟩ := findBaseMatch_structure hm
      have hlen := congrArg List.length heq
      have hlit : litL.length = 12 := rfl
      simp only [List.length_append, hlit, List.length_cons] at hlen
      dsimp only
      rw [replaceAllFuel_congr b cs.length rest.length rest (by omega) (le_refl _)]

theorem isPrefixOf_self_append (p u : List Char) : p.isPrefixOf (p ++ u) = true := by
  simp [List.isPrefixOf_iff_prefix]

theorem isPrefixOf_append_indep {p : List Char} :
    ∀ {a : List Char}, p.length ≤ a.length → ∀ u₁ u₂ : List Char,
      p.isPrefixOf (a ++ u₁) = p.isPrefixOf (a ++ u₂) := by
  induction p with
  | nil => intro a _ u₁ u₂; simp [List.isPrefixOf]
  | cons x p' ih =>
    intro a hlen u₁ u₂
    cases a with
    | nil => simp at hlen
    | cons y a' =>
      simp only [List.cons_append, List.isPrefixOf, List.append_eq]
      rw [ih (Nat.le_of_succ_le_succ hlen)]

/-! ## C3: the rewrite replaces every base element, not only the first

The general index document is modelled by `docOfParts`: base elements with
arbitrary surrounding markup in between (and before and after). The gap
condition `noLitStart` says exactly that no further occurrence of the match
literal `<base href="` begins inside the surrounding markup — i.e. the base
elements of the decomposition are precisely the places where the regexp can
match. Gaps may freely contain quotes, angle brackets and newlines.
-/

theorem noLitStart_drop (x : List Char) {c : Char} {y : List Char}
    (hg : noLitStart (x ++ c :: y) = true) : noLitStart (c :: y) = true := by
  induction x with
  | nil => exact hg
  | cons a x' ih =>
    simp only [List.cons_append, noLitStart, Bool.and_eq_true] at hg
    exact ih hg.2

theorem noLitStart_headTest_none (x : List Char) {c : Char} {y u : List Char}
    (hg : noLitStart (x ++ c :: y) = true) :
    headTest ((c :: y) ++ (litL ++ u)) = none := by
  have hcy : noLitStart (c :: y) = true := noLitStart_drop x hg
  simp only [noLitStart, Bool.and_eq_true, Bool.not_eq_true'] at hcy
  have hlen : litL.length ≤ ((c :: y) ++ litL).length := by
    simp only [List.length_append, List.length_cons]
    omega
  have hind : litL.isPrefixOf (c :: (y ++ (litL ++ u))) =
      litL.isPrefixOf (c :: (y ++ litL)) := by
    have e := @isPrefixOf_append_indep litL ((c :: y) ++ litL) hlen u []
    simpa [List.append_assoc] using e
  have hfalse : litL.isPrefixOf (c :: (y ++ (litL ++ u))) = false := by
    rw [hind]
    simpa using hcy.1
  simp only [List.cons_append]
  unfold headTest
  rw [hfalse]
  simp

theorem noLitStart_findBaseMatch_none {l : List Char} (h : noLitStart l = true) :
    findBaseMatch l = none := by
  induction l with
  | nil => rfl
  | cons c cs ih =>
    simp only [noLitStart, Bool.and_eq_true, Bool.not_eq_true'] at h
    have hp : litL.isPrefixOf (c :: cs) = false := by
      by_contra hc
      rw [Bool.not_eq_false] at hc
      have h1 : litL <+: (c :: cs) := List.isPrefixOf_iff_prefix.mp hc
      have h2 : litL <+: ((c :: cs) ++ litL) := h1.trans (List.prefix_append ..)
      have h3 : litL.isPrefixOf ((c :: cs) ++ litL) = true :=
        List.isPrefixOf_iff_prefix.mpr h2
      rw [h.1] at h3
      exact absurd h3 (by simp)
    have hht : headTest (c :: cs) = none := by simp [headTest, hp]
    simp [findBaseMatch, hht, ih h.2]

theorem replaceAllBase_docOfParts (b post : List Char)
    (parts : List (List Char × List Char))
    (hparts : ∀ p ∈ parts,
      noLitStart p.1 = true ∧ (∀ c ∈ p.2, c ≠ '"') ∧ (∀ c ∈ p.2, c ≠ '\n'))
    (hpost : noLitStart post = true) :
    replaceAllBase b (docOfParts post parts) =
      docOfParts post (parts.map fun p => (p.1, b)) := by
  induction parts with
  | nil =>
    simp only [docOfParts, List.map_nil]
    rw [replaceAllBase_eq, noLitStart_findBaseMatch_none hpost]
  | cons p ps ih =>
    obtain ⟨g, href⟩ := p
    obtain ⟨hgap, hq, hn⟩ := hparts (g, href) (List.mem_cons_self _ _)
    have hdoc : docOfParts post ((g, href) :: ps) =
        g ++ (litL ++ (href ++ '"' :: ('/' :: '>' :: docOfParts post ps))) := by
      simp [docOfParts, baseElement, List.append_assoc]
    have hK : headTest (litL ++ (href ++ '"' :: ('/' :: '>' :: docOfParts post ps))) =
        some (href, ['"', '/', '>'], docOfParts post ps) := by
      unfold headTest
      rw [if_pos (isPrefixOf_self_append ..), List.drop_left]
      have := @findCloser_content href hq hn [] (by simp) (docOfParts post ps)
      simpa using this
    have hfm : findBaseMatch (docOfParts post ((g, href) :: ps)) =
        some (g, href, ['"', '/', '>'], docOfParts post ps) := by
      rw [hdoc]
      exact findBaseMatch_build g hK
        (fun x c y hxy => noLitStart_headTest_none x (hxy ▸ hgap))
    rw [replaceAllBase_eq, hfm]
    dsimp only
    rw [ih (fun p' hp' => hparts p' (List.mem_cons_of_mem _ hp'))]
    simp [docOfParts, baseElement, List.append_assoc]

/-- C3 (amended): for an index document interleaving base elements with
arbitrary other markup — the gaps containing no further start of the literal
`<base href="`, the href values quote- and newline-free, so that the base
elements are exactly the regexp's matches — `serveRewrittenIndex` replaces
the href value of every occurrence with the sanitized base, preserving the
surrounding markup; later occurrences are rewritten too, not preserved. The
optional rewriter hook then sees exactly this fully-rewritten text. -/
theorem serveRewrittenIndex_rewrites_every_base_element
    (pu : String → Option String) (h : SPAHandler) (r : Request)
    (parts : List (List Char × List Char)) (post : List Char)
    (hparts : ∀ p ∈ parts,
      noLitStart p.1 = true ∧ (∀ c ∈ p.2, c ≠ '"') ∧ (∀ c ∈ p.2, c ≠ '\n'))
    (hpost : noLitStart post = true)
    (hidx : h.openIndex = Except.ok ⟨docOfParts post parts⟩) :
    (h.indexRewriter = none →
      serveRewrittenIndex pu h r =
        HttpOutcome.indexDoc
          ⟨docOfParts post
            (parts.map fun p => (p.1, (sanitizeBase (basename pu r)).data))⟩) ∧
    (∀ hook : Request → String → String, h.indexRewriter = some hook →
      serveRewrittenIndex pu h r =
        HttpOutcome.indexDoc
          (hook r
            ⟨docOfParts post
              (parts.map fun p => (p.1, (sanitizeBase (basename pu r)).data))⟩)) := by
  have hbody : rewriteBaseHref (sanitizeBase (basename pu r)) ⟨docOfParts post parts⟩ =
      ⟨docOfParts post (parts.map fun p => (p.1, (sanitizeBase (basename pu r)).data))⟩ := by
    unfold rewriteBaseHref
    rw [show (⟨docOfParts post parts⟩ : String).data = docOfParts post parts from rfl]
    rw [replaceAllBase_docOfParts _ _ _ hparts hpost]
  constructor
  · intro hrw
    simp only [serveRewrittenIndex, hidx, hrw, hbody]
  · intro hook hrw
    simp only [serveRewrittenIndex, hidx, hrw, hbody]

/-- Witness for the amended C3 at a document with two base elements embedded
in surrounding HTML markup: both href values are rewritten to the resolved
base `/x/` and the markup is preserved. -/
theorem serveRewrittenIndex_rewrites_every_base_element_witness :
    (∀ p ∈ [("<html><head>".data, ['a']), ("<p>x</p>".data, ['b'])],
      noLitStart p.1 = true ∧ (∀ c ∈ p.2, c ≠ '"') ∧ (∀ c ∈ p.2, c ≠ '\n')) ∧
    noLitStart "</head></html>".data = true ∧
    serveRewrittenIndex (fun _ => none)
        ⟨fun _ => Except.error ⟨true, false, ""⟩,
          Except.ok ⟨docOfParts "</head></html>".data
            [("<html><head>".data, ['a']), ("<p>x</p>".data, ['b'])]⟩, none⟩
        ⟨"/", "/x", ""⟩ =
      HttpOutcome.indexDoc
        ⟨docOfParts "</head></html>".data
          ([("<html><head>".data, ['a']), ("<p>x</p>".data, ['b'])].map fun p =>
            (p.1, (sanitizeBase (basename (fun _ => none) ⟨"/", "/x", ""⟩)).data))⟩ :=
  ⟨by decide, by decide,
    (serveRewrittenIndex_rewrites_every_base_element (fun _ => none)
        ⟨fun _ => Except.error ⟨true, false, ""⟩,
          Except.ok ⟨docOfParts "</head></html>".data
            [("<html><head>".data, ['a']), ("<p>x</p>".data, ['b'])]⟩, none⟩
        ⟨"/", "/x", ""⟩
        [("<html><head>".data, ['a']), ("<p>x</p>".data, ['b'])]
        "</head></html>".data (by decide) (by decide) rfl).1 rfl⟩

/-! ## C8: idempotence of the base-element rewrite

Replacing the base twice is not byte-identical to replacing it once for
arbitrary base strings (a base containing `"` can fabricate new matches), but
it is idempotent whenever the substituted base contains neither `"` nor a
newline: the rewritten output then has exactly the same match structure as
its input, each match carrying the base itself as content.
-/

theorem matchCloser_quote (r : List Char) :
    matchCloser ('"' :: r) =
      match r.dropWhile isWS with
      | [] => none
      | [_] => none
      | c1 :: c2 :: tail =>
        if c1 = '/' ∧ c2 = '>' then
          some ('"' :: (r.takeWhile isWS ++ ['/', '>']), tail)
        else none := by
  simp [matchCloser]

theorem findCloser_cons (c : Char) (cs : List Char) :
    findCloser (c :: cs) =
      match matchCloser (c :: cs) with
      | some (cl, rest) => some ([], cl, rest)
      | none =>
        if c = '\n' then none
        else
          match findCloser cs with
          | some (co, cl, rest) => some (c :: co, cl, rest)
          | none => none := rfl

theorem matchCloser_none_transfer {w z₁ z₂ : List Char} {d : Char}
    (hdq : d ≠ '"') (hds : d ≠ '/') (hdw : isWS d = false)
    (h : matchCloser (w ++ d :: z₁) = none) : matchCloser (w ++ d :: z₂) = none := by
  cases w with
  | nil => simpa using matchCloser_cons_ne hdq z₂
  | cons c w' =>
    by_cases hc : c = '"'
    · subst hc
      rw [List.cons_append] at h ⊢
      rw [matchCloser_quote] at h ⊢
      rw [dropWhile_append_not w' hdw] at h ⊢
      cases hk : w'.dropWhile isWS with
      | nil =>
        simp only [List.nil_append]
        cases z₂ with
        | nil => rfl
        | cons e z₂' =>
          dsimp only
          rw [if_neg (fun hx => hds hx.1)]
      | cons k1 ks =>
        rw [hk] at h
        cases ks with
        | nil =>
          simp only [List.cons_append, List.nil_append] at h ⊢
          by_cases hcond : k1 = '/' ∧ d = '>'
          · rw [if_pos hcond] at h; exact absurd h (by simp)
          · rw [if_neg hcond]
        | cons k2 ks2 =>
          simp only [List.cons_append] at h ⊢
          by_cases hcond : k1 = '/' ∧ k2 = '>'
          · rw [if_pos hcond] at h; exact absurd h (by simp)
          · rw [if_neg hcond]
    · exact matchCloser_cons_ne hc _

theorem matchCloser_none_transfer_lit {w u₁ u₂ : List Char}
    (h : matchCloser (w ++ litL ++ u₁) = none) : matchCloser (w ++ litL ++ u₂) = none := by
  have e1 : w ++ litL ++ u₁ = w ++ '<' :: ("base href=\"".data ++ u₁) := by
    rw [litL_cons]; simp [List.append_assoc]
  have e2 : w ++ litL ++ u₂ = w ++ '<' :: ("base href=\"".data ++ u₂) := by
    rw [litL_cons]; simp [List.append_assoc]
  rw [e1] at h
  rw [e2]
  exact matchCloser_none_transfer (by decide) (by decide) (by decide) h

theorem findCloser_none_transfer {co b rest tail' : List Char}
    (hco : ∀ c ∈ co, c ≠ '\n')
    {ws : List Char} (hws : ∀ c ∈ ws, isWS c = true) :
    ∀ x : List Char,
      findCloser (x ++ (litL ++ (co ++ ('"' :: (ws ++ '/' :: '>' :: rest))))) = none →
      findCloser (x ++ (litL ++ (b ++ ('"' :: (ws ++ '/' :: '>' :: tail'))))) = none := by
  intro x
  induction x with
  | nil =>
    intro h
    exfalso
    have hn : ∀ c ∈ litL ++ co, c ≠ '\n' := by
      intro c hcm
      rcases List.mem_append.mp hcm with hm | hm
      · exact litL_no_newline c hm
      · exact hco c hm
    exact findCloser_fires hn (matchCloser_fires hws rest)
      (by simpa [List.append_assoc] using h)
  | cons c x' ih =>
    intro h
    rw [List.cons_append] at h ⊢
    rw [findCloser_cons] at h ⊢
    cases hm1 : matchCloser
        (c :: (x' ++ (litL ++ (co ++ ('"' :: (ws ++ '/' :: '>' :: rest)))))) with
    | some p =>
      rw [hm1] at h
      obtain ⟨a1, a2⟩ := p
      simp at h
    | none =>
      rw [hm1] at h
      have hm2 : matchCloser
          (c :: (x' ++ (litL ++ (b ++ ('"' :: (ws ++ '/' :: '>' :: tail')))))) = none := by
        have h1' : matchCloser
            ((c :: x') ++ litL ++ (co ++ ('"' :: (ws ++ '/' :: '>' :: rest)))) = none := by
          simpa [List.append_assoc] using hm1
        have h2' := @matchCloser_none_transfer_lit (c :: x')
          (co ++ ('"' :: (ws ++ '/' :: '>' :: rest)))
          (b ++ ('"' :: (ws ++ '/' :: '>' :: tail'))) h1'
        simpa [List.append_assoc] using h2'
      rw [hm2]
      by_cases hnl : c = '\n'
      · rw [if_pos hnl]
      · rw [if_neg hnl] at h ⊢
        cases hrec : findCloser (x' ++ (litL ++ (co ++ ('"' :: (ws ++ '/' :: '>' :: rest))))) with
        | some q =>
          rw [hrec] at h
          obtain ⟨q1, q2, q3⟩ := q
          simp at h
        | none => rw [ih hrec]

theorem headTest_none_transfer {w co b rest tail' : List Char}
    (hco : ∀ c ∈ co, c ≠ '\n')
    {ws : List Char} (hws : ∀ c ∈ ws, isWS c = true)
    (h : headTest (w ++ (litL ++ (co ++ ('"' :: (ws ++ '/' :: '>' :: rest))))) = none) :
    headTest (w ++ (litL ++ (b ++ ('"' :: (ws ++ '/' :: '>' :: tail'))))) = none := by
  unfold headTest at h ⊢
  have hlen : litL.length ≤ (w ++ litL).length := by simp [List.length_append]
  have hpre : litL.isPrefixOf (w ++ (litL ++ (co ++ ('"' :: (ws ++ '/' :: '>' :: rest))))) =
      litL.isPrefixOf (w ++ (litL ++ (b ++ ('"' :: (ws ++ '/' :: '>' :: tail'))))) := by
    have e := @isPrefixOf_append_indep litL (w ++ litL) hlen
      (co ++ ('"' :: (ws ++ '/' :: '>' :: rest))) (b ++ ('"' :: (ws ++ '/' :: '>' :: tail')))
    simpa [List.append_assoc] using e
  by_cases hp : litL.isPrefixOf
      (w ++ (litL ++ (co ++ ('"' :: (ws ++ '/' :: '>' :: rest))))) = true
  · rw [if_pos hp] at h
    rw [if_pos (hpre ▸ hp)]
    by_cases hwlen : litL.length ≤ w.length
    · have e1 : (w ++ (litL ++ (co ++ ('"' :: (ws ++ '/' :: '>' :: rest))))).drop litL.length =
          w.drop litL.length ++ (litL ++ (co ++ ('"' :: (ws ++ '/' :: '>' :: rest)))) :=
        List.drop_append_of_le_length hwlen
      have e2 : (w ++ (litL ++ (b ++ ('"' :: (ws ++ '/' :: '>' :: tail'))))).drop litL.length =
          w.drop litL.length ++ (litL ++ (b ++ ('"' :: (ws ++ '/' :: '>' :: tail')))) :=
        List.drop_append_of_le_length hwlen
      rw [e1] at h
      rw [e2]
      exact findCloser_none_transfer hco hws (w.drop litL.length) h
    · exfalso
      push_neg at hwlen
      have e1 : (w ++ (litL ++ (co ++ ('"' :: (ws ++ '/' :: '>' :: rest))))).drop litL.length =
          (litL ++ (co ++ ('"' :: (ws ++ '/' :: '>' :: rest)))).drop
            (litL.length - w.length) := by
        rw [List.drop_append_eq_append_drop]
        simp [List.drop_eq_nil_of_le (le_of_lt hwlen)]
      have e2 : (litL ++ (co ++ ('"' :: (ws ++ '/' :: '>' :: rest)))).drop
            (litL.length - w.length) =
          litL.drop (litL.length - w.length) ++ (co ++ ('"' :: (ws ++ '/' :: '>' :: rest))) :=
        List.drop_append_of_le_length (Nat.sub_le _ _)
      rw [e1, e2] at h
      have hn : ∀ c ∈ litL.drop (litL.length - w.length) ++ co, c ≠ '\n' := by
        intro c hcm
        rcases List.mem_append.mp hcm with hm | hm
        · exact litL_no_newline c (List.mem_of_mem_drop hm)
        · exact hco c hm
      exact findCloser_fires hn (matchCloser_fires hws rest)
        (by simpa [List.append_assoc] using h)
  · rw [if_neg (hpre ▸ hp)]

theorem replaceAllBase_idem_aux {b : List Char} (hbq : ∀ c ∈ b, c ≠ '"')
    (hbn : ∀ c ∈ b, c ≠ '\n') :
    ∀ n (l : List Char), l.length ≤ n →
      replaceAllBase b (replaceAllBase b l) = replaceAllBase b l := by
  intro n
  induction n with
  | zero =>
    intro l hl
    have hnil : l = [] := List.eq_nil_of_length_eq_zero (Nat.le_zero.mp hl)
    subst hnil
    have h0 : replaceAllBase b [] = [] := rfl
    simp only [h0]
  | succ n ih =>
    intro l hl
    cases hm : findBaseMatch l with
    | none =>
      have h1 : replaceAllBase b l = l := by rw [replaceAllBase_eq, hm]
      rw [h1]
      exact h1
    | some p =>
      obtain ⟨pre, co, cl, rest⟩ := p
      obtain ⟨heq, hco, ⟨ws, hws, hcl⟩, hpos⟩ := findBaseMatch_structure hm
      have h1 : replaceAllBase b l = pre ++ litL ++ b ++ cl ++ replaceAllBase b rest := by
        rw [replaceAllBase_eq, hm]
      have hlenr : rest.length ≤ n := by
        have hlen := congrArg List.length heq
        have hlit : litL.length = 12 := rfl
        simp only [List.length_append, hlit] at hlen
        omega
      have hR : replaceAllBase b (replaceAllBase b rest) = replaceAllBase b rest :=
        ih rest hlenr
      have hK : headTest
          (litL ++ (b ++ ('"' :: (ws ++ '/' :: '>' :: replaceAllBase b rest)))) =
          some (b, '"' :: (ws ++ ['/', '>']), replaceAllBase b rest) := by
        unfold headTest
        rw [if_pos (isPrefixOf_self_append ..), List.drop_left]
        exact findCloser_content hbq hbn hws (replaceAllBase b rest)
      have hpos2 : ∀ x c y, pre = x ++ c :: y →
          headTest ((c :: y) ++
            (litL ++ (b ++ ('"' :: (ws ++ '/' :: '>' :: replaceAllBase b rest))))) = none := by
        intro x c y hxy
        have hold := hpos x c y hxy
        rw [hcl] at hold
        have hold2 : headTest
            ((c :: y) ++ (litL ++ (co ++ ('"' :: (ws ++ '/' :: '>' :: rest))))) = none := by
          simpa [List.append_assoc] using hold
        exact headTest_none_transfer hco hws hold2
      have hfm2 : findBaseMatch
          (pre ++ (litL ++ (b ++ ('"' :: (ws ++ '/' :: '>' :: replaceAllBase b rest))))) =
          some (pre, b, '"' :: (ws ++ ['/', '>']), replaceAllBase b rest) :=
        findBaseMatch_build pre hK hpos2
      have hshape : pre ++ litL ++ b ++ cl ++ replaceAllBase b rest =
          pre ++ (litL ++ (b ++ ('"' :: (ws ++ '/' :: '>' :: replaceAllBase b rest)))) := by
        rw [hcl]
        simp [List.append_assoc]
      rw [h1, hshape, replaceAllBase_eq, hfm2]
      dsimp only
      rw [hR]
      simp [List.append_assoc]

theorem replaceAllBase_idem {b : List Char} (hbq : ∀ c ∈ b, c ≠ '"')
    (hbn : ∀ c ∈ b, c ≠ '\n') (l : List Char) :
    replaceAllBase b (replaceAllBase b l) = replaceAllBase b l :=
  replaceAllBase_idem_aux hbq hbn l.length l (le_refl _)

/-- Counterexample to C8 as stated: for the base string `"/><base href="`
(which survives the `$`-sanitization unchanged), rewriting the document
`<base href="x"/>` twice is not byte-identical to rewriting it once. -/
theorem baseElementRewrite_not_idempotent_counterexample :
    baseElementRewrite "\"/><base href=\""
        (baseElementRewrite "\"/><base href=\"" "<base href=\"x\"/>") ≠
      baseElementRewrite "\"/><base href=\"" "<base href=\"x\"/>" := by
  decide

/-- C8 (amended): for every document and every base string containing neither
`"` nor a newline, applying the base-element rewrite twice with the same base
yields output byte-identical to applying it once. -/
theorem baseElementRewrite_idempotent_of_clean_base (base doc : String)
    (hq : ∀ c ∈ base.data, c ≠ '"') (hn : ∀ c ∈ base.data, c ≠ '\n') :
    baseElementRewrite base (baseElementRewrite base doc) = baseElementRewrite base doc := by
  have hq2 : ∀ c ∈ (sanitizeBase base).data, c ≠ '"' :=
    fun c hc => hq c (List.mem_of_mem_filter hc)
  have hn2 : ∀ c ∈ (sanitizeBase base).data, c ≠ '\n' :=
    fun c hc => hn c (List.mem_of_mem_filter hc)
  exact congrArg String.mk (replaceAllBase_idem hq2 hn2 doc.data)

/-- Witness for the amended C8 at base `/spa/` and a one-element document. -/
theorem baseElementRewrite_idempotent_of_clean_base_witness :
    (∀ c ∈ ("/spa/" : String).data, c ≠ '"') ∧
    (∀ c ∈ ("/spa/" : String).data, c ≠ '\n') ∧
    baseElementRewrite "/spa/" (baseElementRewrite "/spa/" "<base href=\"old\"/>") =
      baseElementRewrite "/spa/" "<base href=\"old\"/>" :=
  ⟨by decide, by decide,
    baseElementRewrite_idempotent_of_clean_base "/spa/" "<base href=\"old\"/>"
      (by decide) (by decide)⟩

/-- Counterexample to C3 as stated: with two base elements
`<base href="a"/><base href="b"/>` and resolved base `/x/`, the served
document rewrites both occurrences; the second one is not preserved. -/
theorem serveRewrittenIndex_first_only_counterexample :
    serveRewrittenIndex (fun _ => none)
        ⟨fun _ => Except.error ⟨true, false, ""⟩,
          Except.ok "<base href=\"a\"/><base href=\"b\"/>", none⟩
        ⟨"/", "/x", ""⟩ =
      HttpOutcome.indexDoc "<base href=\"/x/\"/><base href=\"/x/\"/>" ∧
    HttpOutcome.indexDoc "<base href=\"/x/\"/><base href=\"/x/\"/>" ≠
      HttpOutcome.indexDoc "<base href=\"/x/\"/><base href=\"b\"/>" := by
  constructor
  · rfl
  · decide

end Spaserve
